import Mathlib

/-!
Shallow embedding of the misy MIDI synthesizer core (misy.py):
the sample clock and block time vectors, the waveform generators, the
wavetable, the per-note attack/release envelope, the voice registry,
and the per-block mixing/normalization callback.  Sample values and
times are modelled as exact real numbers; numpy's floored modulus,
clip and linspace (inclusive endpoint) are modelled explicitly.
-/

namespace Misy

open Real

/-- Sample rate in samples per second (misy.py line 14). -/
noncomputable def sample_rate : ℝ := 48000

/-- Attack time in seconds (misy.py line 38). -/
noncomputable def attack_time : ℝ := 0.020

/-- Release time in seconds (misy.py line 40). -/
noncomputable def release_time : ℝ := 0.1

/-- numpy floored modulus on reals: `x % y = x - y * ⌊x / y⌋`. -/
noncomputable def fmod (x y : ℝ) : ℝ := x - y * ⌊x / y⌋

/-- numpy `np.clip x lo hi` (here `clip lo hi x`). -/
noncomputable def clip (lo hi x : ℝ) : ℝ := min hi (max lo x)

/-- numpy `np.sign`. -/
noncomputable def sgn (x : ℝ) : ℝ := if 0 < x then 1 else if x < 0 then -1 else 0

/-- numpy `np.linspace a b n` with the default inclusive endpoint:
`n` evenly spaced points from `a` to `b`, both endpoints included when
`n ≥ 2`; `[a]` when `n = 1`; `[]` when `n = 0`. -/
noncomputable def linspace (a b : ℝ) (n : ℕ) : List ℝ :=
  if n ≤ 1 then List.replicate n a
  else (List.range n).map (fun (i : ℕ) => a + (i : ℝ) * (b - a) / ((n : ℝ) - 1))

/-- Embedding of `sample_times` (misy.py lines 67-73): the time vector of a block of
`frame_count` frames starting at sample count `sample_clock`. -/
noncomputable def sample_times (sample_clock frame_count : ℕ) : List ℝ :=
  linspace ((sample_clock : ℝ) / sample_rate)
    (((sample_clock : ℝ) + (frame_count : ℝ)) / sample_rate) frame_count

/-- Embedding of `sine_samples` (misy.py lines 52-53). -/
noncomputable def sine_samples (t : List ℝ) (f : ℝ) : List ℝ :=
  t.map (fun x => Real.sin (2 * π * f * x))

/-- Embedding of `saw_samples` (misy.py lines 57-58): `(f * t) % 2.0 - 1.0`. -/
noncomputable def saw_samples (t : List ℝ) (f : ℝ) : List ℝ :=
  t.map (fun x => fmod (f * x) 2 - 1)

/-- Embedding of `square_samples` (misy.py lines 62-63). -/
noncomputable def square_samples (t : List ℝ) (f : ℝ) : List ℝ :=
  t.map (fun x => sgn (fmod (f * x) 2 - 1))

/-- Embedding of `wavetable` (misy.py line 75): built once at module load with
`sample_clock = 0`, as `sine_samples (sample_times 640) 750.0`. -/
noncomputable def wavetable : List ℝ :=
  sine_samples (sample_times 0 640) 750

/-- Embedding of `nwavetable = len(wavetable)` (misy.py line 76). -/
noncomputable def nwavetable : ℕ := wavetable.length

/-- Embedding of `wavetable_freq` (misy.py line 77). -/
noncomputable def wavetable_freq : ℝ := 750

/-- Embedding of `wave_samples` (misy.py lines 79-88).  Indices produced by the
floored modulus lie in `[0, nwavetable)`, so `Int.toNat` on the floor
and `List.getD` with default 0 recover numpy's in-range indexing. -/
noncomputable def wave_samples (t : List ℝ) (f : ℝ) : List ℝ :=
  t.map (fun x =>
    let step := f / wavetable_freq
    let t0 := fmod (step * x * sample_rate) (nwavetable : ℝ)
    let int_part : ℤ := ⌊t0⌋
    let frac_part : ℝ := t0 - (int_part : ℝ)
    let i0 : ℕ := int_part.toNat
    let i1 : ℕ := (i0 + 1) % nwavetable
    let x0 := wavetable.getD i0 0
    let x1 := wavetable.getD i1 0
    x0 * frac_part + x1 * (1 - frac_part))

/-- Embedding of `oscillators` (misy.py lines 101-106), dispatched by index as the
code indexes its list of generator functions.  An out-of-range index
would raise in Python and is modelled as a silent generator; every
index the program produces is `< 4`. -/
noncomputable def oscillators (i : ℕ) : List ℝ → ℝ → List ℝ :=
  match i with
  | 0 => sine_samples
  | 1 => saw_samples
  | 2 => square_samples
  | 3 => wave_samples
  | _ => fun t _ => t.map (fun _ => 0)

/-- Embedding of `key_to_freq` (misy.py lines 258-259). -/
noncomputable def key_to_freq (key : ℕ) : ℝ :=
  440 * (2 : ℝ) ^ (((key : ℝ) - 69) / 12)

/-- Embedding of `class Note` (misy.py lines 112-118): a currently playing voice. -/
structure Note where
  frequency : ℝ
  attack_time_remaining : ℝ
  out_osc : ℕ
  playing : Bool
  release_time_remaining : Option ℝ

/-- Embedding of `Note.__init__` (misy.py lines 113-118). -/
noncomputable def Note.init (key osc : ℕ) : Note :=
  { frequency := key_to_freq key
    attack_time_remaining := attack_time
    out_osc := osc
    playing := true
    release_time_remaining := none }

/-- Embedding of `Note.release` (misy.py lines 121-122). -/
noncomputable def Note.release (n : Note) : Note :=
  { n with release_time_remaining := some release_time }

/-- Embedding of `Note.samples` (misy.py lines 127-197): render the note over the
time vector `t`, returning the (optional) samples and the updated
note state. -/
noncomputable def Note.samples (n : Note) (t : List ℝ) : Option (List ℝ) × Note :=
  if n.playing = true then
    let frame_count := t.length
    let raw := oscillators n.out_osc t n.frequency
    match n.release_time_remaining with
    | some rtr =>
      if rtr ≤ 0 then (none, { n with playing := false })
      else
        let start_gain := rtr / release_time
        let end_time := (frame_count : ℝ) / sample_rate
        let rtr2 := rtr - end_time
        let end_gain := rtr2 / release_time
        let envelope := (linspace start_gain end_gain frame_count).map (clip 0 1)
        (some (raw.zipWith (· * ·) envelope),
          { n with release_time_remaining := some (max 0 rtr2) })
    | none =>
      if 0 < n.attack_time_remaining then
        let atr := n.attack_time_remaining
        let start_gain := 1 - atr / attack_time
        let end_time := (frame_count : ℝ) / sample_rate
        let atr2 := atr - end_time
        let end_gain := 1 - atr2 / attack_time
        let envelope := (linspace start_gain end_gain frame_count).map (clip 0 1)
        (some (raw.zipWith (· * ·) envelope),
          { n with attack_time_remaining := atr2 })
      else (some raw, n)
  else (none, n)

/-- The voice registry `out_keys` (misy.py line 31): a Python dict from
MIDI key number to `Note`, modelled as an insertion-ordered
association list with at most one entry per key. -/
def Registry : Type := List (ℕ × Note)

/-- Dict lookup `out_keys[key]`. -/
def getKey (keys : List (ℕ × Note)) (key : ℕ) : Option Note :=
  (keys.find? (fun kv => kv.1 == key)).map Prod.snd

/-- Dict store `out_keys[key] = v`: replace in place when the key is
present (dict order keeps the original slot), else append. -/
def setKey (keys : List (ℕ × Note)) (key : ℕ) (v : Note) : List (ℕ × Note) :=
  if keys.any (fun kv => kv.1 == key) then
    keys.map (fun kv => if kv.1 = key then (kv.1, v) else kv)
  else keys ++ [(key, v)]

/-- The `note_on` arm of `process_midi_event` (misy.py lines 279-284):
`out_keys[key] = Note(key, out_osc)`. -/
noncomputable def process_note_on (keys : List (ℕ × Note)) (key osc : ℕ) :
    List (ℕ × Note) :=
  setKey keys key (Note.init key osc)

/-- The `note_off` arm of `process_midi_event` (misy.py lines 287-293):
`if key in out_keys: out_keys[key].release()`. -/
noncomputable def process_note_off (keys : List (ℕ × Note)) (key : ℕ) :
    List (ℕ × Note) :=
  if keys.any (fun kv => kv.1 == key) then
    keys.map (fun kv => if kv.1 = key then (kv.1, kv.2.release) else kv)
  else keys

/-- Elementwise sum of two sample buffers (numpy `samples += ns`). -/
noncomputable def addL (a b : List ℝ) : List ℝ := a.zipWith (· + ·) b

/-- The render-and-prune phase of `output_callback` (misy.py lines
213-237): start from silence; when keys are pressed, render every
voice over the block's time vector, add each non-terminal voice's
samples into the mix, and keep exactly the non-terminal voices (with
their updated envelope state), deleting the completed ones. -/
noncomputable def mix_block (keys : List (ℕ × Note)) (sample_clock frame_count : ℕ) :
    List ℝ × List (ℕ × Note) :=
  let zeros := List.replicate frame_count (0 : ℝ)
  if keys.isEmpty then (zeros, keys)
  else
    let t := sample_times sample_clock frame_count
    let rendered := keys.map (fun kv => (kv.1, kv.2.samples t))
    let mixed := rendered.foldl
      (fun acc r =>
        match r.2.1 with
        | none => acc
        | some s => addL acc s) zeros
    let survivors := (rendered.filter (fun r => r.2.1.isSome)).map
      (fun r => (r.1, r.2.2))
    (mixed, survivors)

/-- The global synthesizer state touched by the audio callback: the
voice registry `out_keys` and the `sample_clock` (misy.py lines 31, 48). -/
structure SynthState where
  out_keys : List (ℕ × Note)
  sample_clock : ℕ

/-- Embedding of `output_callback` (misy.py lines 202-253): render and prune, then
scale the mix by 1/8 when the post-prune voice count is at most 8 and
by 1/count otherwise, and advance the sample clock by the frame count. -/
noncomputable def output_callback (st : SynthState) (frame_count : ℕ) :
    List ℝ × SynthState :=
  let p := mix_block st.out_keys st.sample_clock frame_count
  let nkeys := p.2.length
  let out :=
    if nkeys ≤ 8 then p.1.map (fun x => x * (1 / 8))
    else p.1.map (fun x => x * (1 / (nkeys : ℝ)))
  (out, { out_keys := p.2, sample_clock := st.sample_clock + frame_count })

/-- Modelled from the claim's words (C1): wavetable lookup where the
fractional part is the interpolation weight of the *upper* neighbour,
i.e. `table[floor idx] * (1 - frac) + table[(floor idx + 1) % len] * frac`. -/
noncomputable def claimed_wave_samples (t : List ℝ) (f : ℝ) : List ℝ :=
  t.map (fun x =>
    let step := f / wavetable_freq
    let t0 := fmod (step * x * sample_rate) (nwavetable : ℝ)
    let int_part : ℤ := ⌊t0⌋
    let frac_part : ℝ := t0 - (int_part : ℝ)
    let i0 : ℕ := int_part.toNat
    let i1 : ℕ := (i0 + 1) % nwavetable
    let x0 := wavetable.getD i0 0
    let x1 := wavetable.getD i1 0
    x0 * (1 - frac_part) + x1 * frac_part)

/-- Modelled from the claim's words (C9): a table holding exactly one
full cycle of the base sine over the 640 reference samples. -/
noncomputable def one_cycle_wavetable : List ℝ :=
  (List.range 640).map (fun (i : ℕ) => Real.sin (2 * π * (i : ℝ) / 640))

/-- Modelled from the claim's words (C4): the loudness-normalization
factor as a function of the post-prune active-voice count. -/
noncomputable def spec_norm_scale (nkeys : ℕ) : ℝ :=
  if nkeys ≤ 8 then 1 / 8 else 1 / (nkeys : ℝ)

/-- A concrete sawtooth voice in Release phase with 0.1 s remaining,
used to evaluate the envelope theorems on explicit inputs. -/
noncomputable def noteR : Note :=
  { frequency := 440, attack_time_remaining := 0, out_osc := 1,
    playing := true, release_time_remaining := some (1 / 10) }

/-- A concrete sawtooth voice still in Attack phase. -/
noncomputable def noteA : Note :=
  { frequency := 440, attack_time_remaining := 1 / 100, out_osc := 1,
    playing := true, release_time_remaining := none }

/-- A concrete sawtooth voice in the idle-sustain phase. -/
noncomputable def noteS : Note :=
  { frequency := 440, attack_time_remaining := 0, out_osc := 1,
    playing := true, release_time_remaining := none }

/-- The state of `noteS` after a release followed by one rendered
one-sample block: the remaining release time has dropped by 1/48000 s
to 4799/48000 s. -/
noncomputable def note1 : Note :=
  { frequency := 440, attack_time_remaining := 0, out_osc := 1,
    playing := true, release_time_remaining := some (4799 / 48000) }

/-! ### Basic lemmas about the embedded primitives -/

theorem linspace_length (a b : ℝ) (n : ℕ) : (linspace a b n).length = n := by
  unfold linspace
  by_cases hn : n ≤ 1 <;> simp [hn]

theorem linspace_getD (a b : ℝ) (n i : ℕ) (h : i < n) :
    (linspace a b n).getD i 0 = a + (i : ℝ) * (b - a) / ((n : ℝ) - 1) := by
  unfold linspace
  rcases Nat.lt_or_ge n 2 with hn | hn
  · have hn1 : n = 1 := by omega
    subst hn1
    have hi : i = 0 := by omega
    subst hi
    simp
  · rw [if_neg (by omega)]
    have hi : i < ((List.range n).map
        (fun (i : ℕ) => a + (i : ℝ) * (b - a) / ((n : ℝ) - 1))).length := by
      simpa using h
    rw [List.getD_eq_getElem _ _ hi]
    simp

theorem getD_map_of_lt {α β : Type} [Inhabited β] (f : α → β) (l : List α)
    (d : α) (i : ℕ) (h : i < l.length) :
    (l.map f).getD i (f d) = f (l.getD i d) := by
  rw [List.getD_eq_getElem _ _ (by simpa using h), List.getD_eq_getElem _ _ h,
    List.getElem_map]

theorem fmod_eq_self (x y : ℝ) (h0 : 0 ≤ x) (hy : 0 < y) (hxy : x < y) :
    fmod x y = x := by
  unfold fmod
  have hz : ⌊x / y⌋ = 0 := by
    rw [Int.floor_eq_zero_iff, Set.mem_Ico]
    exact ⟨div_nonneg h0 hy.le, (div_lt_one hy).mpr hxy⟩
  simp [hz]

theorem oscillators_length (i : ℕ) (t : List ℝ) (f : ℝ) :
    (oscillators i t f).length = t.length := by
  rcases i with _ | _ | _ | _ | m <;>
    simp [oscillators, sine_samples, saw_samples, square_samples, wave_samples]

theorem sample_times_length (c n : ℕ) : (sample_times c n).length = n := by
  unfold sample_times
  exact linspace_length _ _ _

theorem wavetable_length : wavetable.length = 640 := by
  unfold wavetable sine_samples
  rw [List.length_map]
  exact sample_times_length 0 640

theorem nwavetable_eq : nwavetable = 640 := wavetable_length

theorem sample_times_getD (c n i : ℕ) (h : i < n) :
    (sample_times c n).getD i 0 =
      (c : ℝ) / sample_rate + (i : ℝ) * (n : ℝ) / (((n : ℝ) - 1) * sample_rate) := by
  unfold sample_times
  rw [linspace_getD _ _ _ _ h]
  have hsub : ((c : ℝ) + (n : ℝ)) / sample_rate - (c : ℝ) / sample_rate
      = (n : ℝ) / sample_rate := by ring
  rw [hsub, mul_div_assoc', div_div, mul_comm sample_rate ((n : ℝ) - 1)]

theorem wavetable_getD (i : ℕ) (h : i < 640) :
    wavetable.getD i 0 = Real.sin (20 * π * (i : ℝ) / 639) := by
  have hv : (sample_times 0 640).getD i 0 = (i : ℝ) / 47925 := by
    rw [sample_times_getD 0 640 i h]
    unfold sample_rate
    push_cast
    ring
  have hmap : wavetable.getD i 0
      = Real.sin (2 * π * 750 * ((sample_times 0 640).getD i 0)) := by
    unfold wavetable sine_samples
    have h' : i < (sample_times 0 640).length := by
      rw [sample_times_length]; exact h
    have := getD_map_of_lt (fun x => Real.sin (2 * π * 750 * x))
      (sample_times 0 640) 0 i h'
    simpa using this
  rw [hmap, hv]
  have harg : 2 * π * 750 * ((i : ℝ) / 47925) = 20 * π * (i : ℝ) / 639 := by
    ring
  rw [harg]

theorem samples_release_pos (note : Note) (t : List ℝ) (r : ℝ)
    (hp : note.playing = true) (hr : note.release_time_remaining = some r)
    (h0 : 0 < r) :
    note.samples t =
      (some ((oscillators note.out_osc t note.frequency).zipWith (· * ·)
        ((linspace (r / release_time)
          ((r - (t.length : ℝ) / sample_rate) / release_time)
          t.length).map (clip 0 1))),
       { note with release_time_remaining := some (max 0 (r - (t.length : ℝ) / sample_rate)) }) := by
  unfold Note.samples
  rw [hp, hr]
  simp only [if_true]
  rw [if_neg (not_le.mpr h0)]

theorem samples_release_done (note : Note) (t : List ℝ) (r : ℝ)
    (hp : note.playing = true) (hr : note.release_time_remaining = some r)
    (h0 : r ≤ 0) :
    note.samples t = (none, { note with playing := false }) := by
  unfold Note.samples
  rw [hp, hr]
  simp only [if_true]
  rw [if_pos h0]

theorem samples_attack_pos (note : Note) (t : List ℝ)
    (hp : note.playing = true) (hr : note.release_time_remaining = none)
    (ha : 0 < note.attack_time_remaining) :
    note.samples t =
      (some ((oscillators note.out_osc t note.frequency).zipWith (· * ·)
        ((linspace (1 - note.attack_time_remaining / attack_time)
          (1 - (note.attack_time_remaining - (t.length : ℝ) / sample_rate) / attack_time)
          t.length).map (clip 0 1))),
       { note with attack_time_remaining := note.attack_time_remaining - (t.length : ℝ) / sample_rate }) := by
  unfold Note.samples
  rw [hp, hr]
  simp only [if_true]
  rw [if_pos ha]

theorem zip_env_getD (raw env : List ℝ) (i : ℕ) (hi : i < raw.length)
    (he : i < env.length) :
    (raw.zipWith (· * ·) env).getD i 0 = raw.getD i 0 * env.getD i 0 := by
  have hz : i < (raw.zipWith (· * ·) env).length := by
    rw [List.length_zipWith]
    omega
  rw [List.getD_eq_getElem _ _ hz, List.getD_eq_getElem _ _ hi,
    List.getD_eq_getElem _ _ he, List.getElem_zipWith]

theorem env_getD (sg eg : ℝ) (n i : ℕ) (h : i < n) :
    ((linspace sg eg n).map (clip 0 1)).getD i 0 =
      min 1 (max 0 (sg + (i : ℝ) * (eg - sg) / ((n : ℝ) - 1))) := by
  have hl : i < (linspace sg eg n).length := by
    rw [linspace_length]; exact h
  have hd : clip 0 1 (0 : ℝ) = 0 := by
    unfold clip; norm_num
  have hm := getD_map_of_lt (clip 0 1) (linspace sg eg n) 0 i hl
  rw [hd] at hm
  rw [hm, linspace_getD _ _ _ _ h]
  rfl

theorem fmod_add_self (y : ℝ) : fmod (y + 2) 2 = fmod y 2 := by
  unfold fmod
  have hdiv : (y + 2) / 2 = y / 2 + 1 := by ring
  rw [hdiv, Int.floor_add_one]
  push_cast
  ring

theorem find_map_pres {α : Type} (p : α → Bool) (f : α → α)
    (hpf : ∀ x, p (f x) = p x) (l : List α) :
    (l.map f).find? p = (l.find? p).map f := by
  induction l with
  | nil => rfl
  | cons x xs ih =>
    simp only [List.map_cons, List.find?_cons, hpf x]
    cases hx : p x
    · simpa [hx] using ih
    · simp [hx]

theorem find_eq_none_of_any_false {α : Type} (p : α → Bool) (l : List α)
    (h : l.any p = false) : l.find? p = none := by
  rw [List.find?_eq_none]
  intro x hx
  have := List.any_eq_false.mp h x hx
  simp [this]

theorem find_append_none {α : Type} (p : α → Bool) (l₁ l₂ : List α)
    (h : l₁.find? p = none) : (l₁ ++ l₂).find? p = l₂.find? p := by
  induction l₁ with
  | nil => rfl
  | cons x xs ih =>
    simp only [List.find?_cons] at h ⊢
    cases hx : p x
    · rw [hx] at h
      simp only [List.cons_append, List.find?_cons, hx]
      exact ih h
    · rw [hx] at h
      simp at h

theorem floor_natCast_div_640 (k : ℕ) : ⌊(k : ℝ) / 640⌋ = (k / 640 : ℕ) := by
  obtain ⟨q, r, hr, hk⟩ : ∃ q r, r < 640 ∧ k = 640 * q + r :=
    ⟨k / 640, k % 640, Nat.mod_lt _ (by norm_num), by omega⟩
  subst hk
  have hq : (640 * q + r) / 640 = q := by omega
  rw [hq]
  rw [Int.floor_eq_iff]
  constructor
  · push_cast
    rw [le_div_iff₀ (by norm_num : (0:ℝ) < 640)]
    nlinarith [Nat.cast_nonneg (α := ℝ) r]
  · push_cast
    rw [div_lt_iff₀ (by norm_num : (0:ℝ) < 640)]
    have hrr : (r : ℝ) < 640 := by exact_mod_cast hr
    nlinarith

theorem fmod_natCast_640 (k : ℕ) : fmod (k : ℝ) 640 = ((k % 640 : ℕ) : ℝ) := by
  unfold fmod
  rw [floor_natCast_div_640]
  have hn : k = 640 * (k / 640) + k % 640 := by omega
  have hr : (k : ℝ) = ((640 * (k / 640) + k % 640 : ℕ) : ℝ) := by
    exact_mod_cast congrArg (fun m : ℕ => (m : ℝ)) hn
  push_cast at hr
  rw [Int.cast_natCast]
  linarith

/-! ### Claim theorems -/

/-- C10: when the voice registry is empty, the audio callback returns
exactly `frame_count` zero-valued samples (the 1/8 normalization leaves
the silent buffer zero) and still advances the sample clock by
`frame_count`, so silence is gap-free and later notes keep their phase. -/
theorem c10_empty_registry_silence (c n : ℕ) :
    output_callback ⟨[], c⟩ n = (List.replicate n (0 : ℝ), ⟨[], c + n⟩)
    ∧ (List.replicate n (0 : ℝ)).length = n := by
  constructor
  · unfold output_callback mix_block
    simp
  · simp

/-- C4: after rendering and pruning, the callback scales the mixed buffer
by the claimed normalization factor: 1/8 whenever the post-prune voice
count is at most 8 (including 0), and 1/count otherwise; in particular 8
voices give 1/8 and 9 voices give 1/9. -/
theorem c4_normalization (st : SynthState) (n : ℕ) :
    (output_callback st n).1 =
      (mix_block st.out_keys st.sample_clock n).1.map
        (fun x => x * spec_norm_scale (mix_block st.out_keys st.sample_clock n).2.length)
    ∧ spec_norm_scale 0 = 1 / 8 ∧ spec_norm_scale 8 = 1 / 8
    ∧ spec_norm_scale 9 = 1 / 9 := by
  refine ⟨?_, by norm_num [spec_norm_scale], by norm_num [spec_norm_scale],
    by norm_num [spec_norm_scale]⟩
  by_cases hk : (mix_block st.out_keys st.sample_clock n).2.length ≤ 8
  · simp [output_callback, spec_norm_scale, hk]
  · simp [output_callback, spec_norm_scale, hk]

/-- C3 counterexample: with `sample_clock = 0` and a 16-frame block the
second sample time is 1/45000, not the claimed `1/sampleRate = 1/48000`:
the inclusive linspace endpoint makes the spacing `n/((n-1)·sampleRate)`. -/
theorem c3_counterexample : (sample_times 0 16).getD 1 0 ≠ 1 / 48000 := by
  rw [sample_times_getD 0 16 1 (by norm_num)]
  unfold sample_rate
  norm_num

/-- C3 amended: the sample clock advances by exactly the frame count, and
for a block of `n ≥ 2` frames the time vector holds `n` points starting at
`sampleClock/sampleRate`, spaced `n/((n-1)·sampleRate)` apart, ending
exactly at `(sampleClock+n)/sampleRate`, which is also the first point of
the next block (consecutive blocks overlap in that boundary point). -/
theorem c3_amended (st : SynthState) (n : ℕ) (hn : 2 ≤ n) :
    (output_callback st n).2.sample_clock = st.sample_clock + n
    ∧ (sample_times st.sample_clock n).length = n
    ∧ (∀ i, i < n → (sample_times st.sample_clock n).getD i 0 =
        (st.sample_clock : ℝ) / sample_rate +
          (i : ℝ) * (n : ℝ) / (((n : ℝ) - 1) * sample_rate))
    ∧ (sample_times st.sample_clock n).getD (n - 1) 0 =
        ((st.sample_clock : ℝ) + (n : ℝ)) / sample_rate
    ∧ (sample_times (st.sample_clock + n) n).getD 0 0 =
        ((st.sample_clock : ℝ) + (n : ℝ)) / sample_rate := by
  refine ⟨by simp [output_callback], sample_times_length _ _,
    fun i hi => sample_times_getD _ _ _ hi, ?_, ?_⟩
  · rw [sample_times_getD _ _ _ (by omega)]
    rw [Nat.cast_sub (by omega : 1 ≤ n), Nat.cast_one]
    have hne : (n : ℝ) - 1 ≠ 0 := by
      have h2 : (2 : ℝ) ≤ (n : ℝ) := by exact_mod_cast hn
      linarith
    have hsr : sample_rate ≠ 0 := by
      unfold sample_rate; norm_num
    field_simp
    ring
  · rw [sample_times_getD _ _ 0 (by omega)]
    push_cast
    ring

/-- C3 witness: the amended statement at the zero state with a 2-frame
block. -/
theorem c3_witness :
    2 ≤ 2 ∧
      ((output_callback ⟨[], 0⟩ 2).2.sample_clock = 0 + 2
      ∧ (sample_times 0 2).length = 2
      ∧ (∀ i, i < 2 → (sample_times 0 2).getD i 0 =
          ((0 : ℕ) : ℝ) / sample_rate +
            (i : ℝ) * ((2 : ℕ) : ℝ) / ((((2 : ℕ) : ℝ) - 1) * sample_rate))
      ∧ (sample_times 0 2).getD (2 - 1) 0 =
          (((0 : ℕ) : ℝ) + ((2 : ℕ) : ℝ)) / sample_rate
      ∧ (sample_times (0 + 2) 2).getD 0 0 =
          (((0 : ℕ) : ℝ) + ((2 : ℕ) : ℝ)) / sample_rate) :=
  ⟨by norm_num, c3_amended ⟨[], 0⟩ 2 (by norm_num)⟩

/-- C2 counterexample: the sawtooth value at `t + 1/f` differs from the
value at `t` (at `f = 1`, `t = 0` the code yields -1 at `t` and 0 at
`t + 1/f`), so the generated wave is not periodic with period `1/f`. -/
theorem c2_counterexample :
    saw_samples [(0 : ℝ) + 1 / 1] 1 ≠ saw_samples [(0 : ℝ)] 1 := by
  unfold saw_samples
  simp only [List.map_cons, List.map_nil]
  have e1 : (1 : ℝ) * ((0 : ℝ) + 1 / 1) = 1 := by norm_num
  have e2 : (1 : ℝ) * (0 : ℝ) = 0 := by norm_num
  rw [e1, e2, fmod_eq_self 1 2 (by norm_num) (by norm_num) (by norm_num),
    fmod_eq_self 0 2 (by norm_num) (by norm_num) (by norm_num)]
  simp only [ne_eq, List.cons.injEq, and_true]
  norm_num

/-- C2 amended: the sawtooth generator returns `(f·t mod 2) − 1` at each
sample time and the resulting rising ramp is periodic with period `2/f`:
shifting every time by `2/f` reproduces the same samples. -/
theorem c2_amended (t : List ℝ) (f : ℝ) (hf : f ≠ 0) :
    saw_samples (t.map (fun x => x + 2 / f)) f = saw_samples t f := by
  unfold saw_samples
  rw [List.map_map]
  apply List.map_congr_left
  intro x _
  simp only [Function.comp_apply]
  have hfx : f * (x + 2 / f) = f * x + 2 := by
    field_simp
    ring
  rw [hfx, fmod_add_self]

/-- C2 witness: the amended periodicity at `f = 1`, `t = [0]`. -/
theorem c2_witness :
    (1 : ℝ) ≠ 0 ∧
      saw_samples (([(0 : ℝ)]).map (fun x => x + 2 / 1)) 1 = saw_samples [(0 : ℝ)] 1 :=
  ⟨one_ne_zero, c2_amended [(0 : ℝ)] 1 one_ne_zero⟩

/-- C9 counterexample: the wavetable is not one full cycle of the base
sine over the 640-entry table: at index 32 the stored value
`sin(640π/639)` is negative while one full cycle over 640 samples would
give `sin(π/10) > 0` there.  (640 samples at 48000 sps of a 750 Hz sine
span ten cycles, not one.) -/
theorem c9_counterexample : wavetable.getD 32 0 ≠ one_cycle_wavetable.getD 32 0 := by
  have hone : one_cycle_wavetable.getD 32 0 = Real.sin (2 * π * ((32 : ℕ) : ℝ) / 640) := by
    unfold one_cycle_wavetable
    have h32 : (32 : ℕ) < (List.range 640).length := by simp
    have hm := getD_map_of_lt (fun (i : ℕ) => Real.sin (2 * π * (i : ℝ) / 640))
      (List.range 640) 0 32 h32
    simp only [Nat.cast_zero, mul_zero, zero_div, Real.sin_zero] at hm
    rw [List.getD_eq_getElem _ _ h32, List.getElem_range] at hm
    exact hm
  have hpos : 0 < Real.sin (2 * π * ((32 : ℕ) : ℝ) / 640) := by
    have harg : 2 * π * ((32 : ℕ) : ℝ) / 640 = π / 10 := by
      push_cast; ring
    rw [harg]
    apply Real.sin_pos_of_pos_of_lt_pi
    · positivity
    · linarith [Real.pi_pos]
  have hneg : Real.sin (20 * π * ((32 : ℕ) : ℝ) / 639) < 0 := by
    have harg : 20 * π * ((32 : ℕ) : ℝ) / 639 = π + π / 639 := by
      push_cast; ring
    rw [harg, Real.sin_add, Real.sin_pi, Real.cos_pi]
    simp only [zero_mul, neg_one_mul, zero_add]
    rw [neg_lt_zero]
    apply Real.sin_pos_of_pos_of_lt_pi
    · positivity
    · linarith [Real.pi_pos]
  rw [wavetable_getD 32 (by norm_num), hone]
  intro hc
  rw [hc] at hneg
  linarith

/-- C9 amended: the wavetable is the fixed constant list of length 640
whose entry `i` is `sin(20π·i/639)`: the 640 points sample the 750 Hz
base sine over `[0, 1/75]` s at 48000 sps (inclusive endpoints), which is
ten full cycles of the reference waveform, not one. -/
theorem c9_amended (i : ℕ) (h : i < 640) :
    wavetable.length = 640 ∧ wavetable.getD i 0 = Real.sin (20 * π * (i : ℝ) / 639) :=
  ⟨wavetable_length, wavetable_getD i h⟩

/-- C9 witness: the amended statement at index 0. -/
theorem c9_witness :
    0 < 640 ∧ (wavetable.length = 640
      ∧ wavetable.getD 0 0 = Real.sin (20 * π * ((0 : ℕ) : ℝ) / 639)) :=
  ⟨by norm_num, c9_amended 0 (by norm_num)⟩

theorem env_singleton (sg eg : ℝ) :
    (linspace sg eg 1).map (clip 0 1) = [clip 0 1 sg] := by
  unfold linspace
  simp

theorem output_callback_def (keys : List (ℕ × Note)) (c n : ℕ) :
    output_callback ⟨keys, c⟩ n =
      (if (mix_block keys c n).2.length ≤ 8
        then (mix_block keys c n).1.map (fun x => x * (1 / 8))
        else (mix_block keys c n).1.map (fun x => x * (1 / ((mix_block keys c n).2.length : ℝ))),
       ⟨(mix_block keys c n).2, c + n⟩) := rfl

theorem mix_block_singleton (k : ℕ) (note : Note) (c n : ℕ) (s : List ℝ)
    (note' : Note) (h : note.samples (sample_times c n) = (some s, note')) :
    mix_block [(k, note)] c n = (addL (List.replicate n 0) s, [(k, note')]) := by
  unfold mix_block
  rw [if_neg (by simp)]
  simp only [List.map_cons, List.map_nil, h]
  simp [List.filter]

theorem output_callback_singleton (k : ℕ) (note : Note) (c n : ℕ) (s : List ℝ)
    (note' : Note) (h : note.samples (sample_times c n) = (some s, note')) :
    output_callback ⟨[(k, note)], c⟩ n =
      ((addL (List.replicate n 0) s).map (fun x => x * (1 / 8)), ⟨[(k, note')], c + n⟩) := by
  rw [output_callback_def, mix_block_singleton k note c n s note' h]
  simp

theorem map_fst_map_pres (keys : List (ℕ × Note)) (f : ℕ × Note → ℕ × Note)
    (hf : ∀ kv, (f kv).1 = kv.1) :
    (keys.map f).map Prod.fst = keys.map Prod.fst := by
  rw [List.map_map]
  apply List.map_congr_left
  intro kv _
  exact hf kv

theorem not_mem_of_any_false (keys : List (ℕ × Note)) (key : ℕ)
    (h : keys.any (fun kv => kv.1 == key) = false) :
    key ∉ keys.map Prod.fst := by
  intro hmem
  obtain ⟨kv, hkv, hfst⟩ := List.mem_map.mp hmem
  have hx := List.any_eq_false.mp h kv hkv
  simp [hfst] at hx

theorem nodup_survivors (keys : List (ℕ × Note)) (t : List ℝ)
    (hnd : (keys.map Prod.fst).Nodup) :
    ((((keys.map (fun kv => (kv.1, kv.2.samples t))).filter
      (fun r => r.2.1.isSome)).map (fun r => (r.1, r.2.2))).map Prod.fst).Nodup := by
  induction keys with
  | nil => simp
  | cons kv ks ih =>
    simp only [List.map_cons] at hnd ⊢
    rw [List.nodup_cons] at hnd
    obtain ⟨hmem, hnd'⟩ := hnd
    by_cases hq : ((kv.2.samples t).1.isSome) = true
    · rw [List.filter_cons, if_pos hq, List.map_cons, List.map_cons, List.nodup_cons]
      refine ⟨?_, ih hnd'⟩
      intro hc
      apply hmem
      obtain ⟨r, hr, hfst⟩ := List.mem_map.mp hc
      obtain ⟨r2, hr2, hh2⟩ := List.mem_map.mp hr
      obtain ⟨kv', hkv', hg⟩ := List.mem_map.mp (List.mem_of_mem_filter hr2)
      refine List.mem_map.mpr ⟨kv', hkv', ?_⟩
      have h1 : r.1 = r2.1 := by rw [← hh2]
      have h2z : r2.1 = kv'.1 := by rw [← hg]
      calc kv'.1 = r2.1 := h2z.symm
        _ = r.1 := h1.symm
        _ = kv.1 := hfst
    · rw [List.filter_cons, if_neg hq]
      exact ih hnd'

theorem init_first_sample_zero (key osc : ℕ) (t : List ℝ) (ht : t ≠ []) :
    ∃ out, ((Note.init key osc).samples t).1 = some out ∧ out.getD 0 0 = 0 := by
  have hat : (0 : ℝ) < attack_time := by
    unfold attack_time; norm_num
  have ha : (0 : ℝ) < (Note.init key osc).attack_time_remaining := hat
  have h := samples_attack_pos (Note.init key osc) t rfl rfl ha
  rw [h]
  refine ⟨_, rfl, ?_⟩
  have hlen : 0 < t.length := List.length_pos.mpr ht
  rw [zip_env_getD _ _ 0 ?_ ?_]
  · rw [env_getD _ _ _ 0 hlen]
    have hsg : 1 - (Note.init key osc).attack_time_remaining / attack_time = 0 := by
      have : (Note.init key osc).attack_time_remaining = attack_time := rfl
      rw [this, div_self hat.ne']
      ring
    rw [Nat.cast_zero, zero_mul, zero_div, add_zero, hsg]
    norm_num
  · rw [oscillators_length]
    exact hlen
  · rw [List.length_map, linspace_length]
    exact hlen

/-- C8: the registry keeps at most one voice per key (key-uniqueness is
preserved by note-on, note-off, and the callback's pruning), and a
note-on for a key unconditionally replaces the stored voice — whatever
its phase, including an in-progress Release — with a fresh Attack-phase
voice (`attackRemaining = attackTime`, no release state) whose first
rendered sample has gain 0. -/
theorem c8_registry_replace (keys : List (ℕ × Note)) (key osc : ℕ) (t : List ℝ)
    (c n : ℕ) (hnd : (keys.map Prod.fst).Nodup) (ht : t ≠ []) :
    ((process_note_on keys key osc).map Prod.fst).Nodup
    ∧ ((process_note_off keys key).map Prod.fst).Nodup
    ∧ ((mix_block keys c n).2.map Prod.fst).Nodup
    ∧ getKey (process_note_on keys key osc) key = some (Note.init key osc)
    ∧ (Note.init key osc).release_time_remaining = none
    ∧ (Note.init key osc).attack_time_remaining = attack_time
    ∧ ∃ out, ((Note.init key osc).samples t).1 = some out ∧ out.getD 0 0 = 0 := by
  refine ⟨?_, ?_, ?_, ?_, rfl, rfl, init_first_sample_zero key osc t ht⟩
  · unfold process_note_on setKey
    by_cases h : keys.any (fun kv => kv.1 == key) = true
    · rw [if_pos h, map_fst_map_pres]
      · exact hnd
      · intro kv
        by_cases hk : kv.1 = key <;> simp [hk]
    · rw [if_neg h]
      have hf : keys.any (fun kv => kv.1 == key) = false := Bool.eq_false_iff.mpr h
      rw [List.map_append, List.nodup_append]
      refine ⟨hnd, by simp, ?_⟩
      intro a ha hb
      simp only [List.map_cons, List.map_nil, List.mem_singleton] at hb
      subst hb
      exact not_mem_of_any_false keys a hf ha
  · unfold process_note_off
    by_cases h : keys.any (fun kv => kv.1 == key) = true
    · rw [if_pos h, map_fst_map_pres]
      · exact hnd
      · intro kv
        by_cases hk : kv.1 = key <;> simp [hk]
    · rw [if_neg h]
      exact hnd
  · unfold mix_block
    by_cases h : keys.isEmpty = true
    · rw [if_pos h]
      simpa using hnd
    · rw [if_neg h]
      simpa using nodup_survivors keys (sample_times c n) hnd
  · unfold process_note_on setKey getKey
    by_cases h : keys.any (fun kv => kv.1 == key) = true
    · rw [if_pos h]
      rw [find_map_pres (fun kv => kv.1 == key)
        (fun kv => if kv.1 = key then (kv.1, Note.init key osc) else kv) ?_ keys]
      · cases hfind : keys.find? (fun kv => kv.1 == key) with
        | none =>
          obtain ⟨kv, hkv, hp⟩ := List.any_eq_true.mp h
          have := List.find?_eq_none.mp hfind kv hkv
          simp [hp] at this
        | some kv0 =>
          have hp0 := List.find?_some hfind
          have hk0 : kv0.1 = key := by simpa using hp0
          simp [hk0]
      · intro kv
        by_cases hk : kv.1 = key <;> simp [hk]
    · rw [if_neg h]
      have hf : keys.any (fun kv => kv.1 == key) = false := Bool.eq_false_iff.mpr h
      rw [find_append_none _ _ _ (find_eq_none_of_any_false _ _ hf)]
      simp [List.find?_cons]

/-- C8 witness: triggering key 60 on the empty registry and rendering a
one-sample block. -/
theorem c8_witness :
    (([] : List (ℕ × Note)).map Prod.fst).Nodup ∧ ([(0 : ℝ)] ≠ []) ∧
      (((process_note_on [] 60 0).map Prod.fst).Nodup
      ∧ ((process_note_off [] 60).map Prod.fst).Nodup
      ∧ ((mix_block [] 0 1).2.map Prod.fst).Nodup
      ∧ getKey (process_note_on [] 60 0) 60 = some (Note.init 60 0)
      ∧ (Note.init 60 0).release_time_remaining = none
      ∧ (Note.init 60 0).attack_time_remaining = attack_time
      ∧ ∃ out, ((Note.init 60 0).samples [(0 : ℝ)]).1 = some out ∧ out.getD 0 0 = 0) :=
  ⟨by simp, by simp, c8_registry_replace [] 60 0 [(0 : ℝ)] 0 1 (by simp) (by simp)⟩

/-- C7 amended: releasing a key twice with no intervening render equals
releasing it once, and releasing an absent key is a no-op; however a
repeated release always re-initializes the voice's remaining release time
to the full `releaseTime` (restarting the ramp), so a second release after
intervening render blocks is *not* equivalent to a single release. -/
theorem c7_amended (keys : List (ℕ × Note)) (key : ℕ) :
    process_note_off (process_note_off keys key) key = process_note_off keys key
    ∧ (keys.any (fun kv => kv.1 == key) = false → process_note_off keys key = keys)
    ∧ getKey (process_note_off keys key) key = (getKey keys key).map Note.release := by
  have hpres : ∀ kv : ℕ × Note,
      (if kv.1 = key then (kv.1, kv.2.release) else kv).1 = kv.1 := by
    intro kv
    by_cases hk : kv.1 = key <;> simp [hk]
  refine ⟨?_, ?_, ?_⟩
  · by_cases h : keys.any (fun kv => kv.1 == key) = true
    · unfold process_note_off
      rw [if_pos h]
      have hcomp : ((fun (kv : ℕ × Note) => kv.1 == key) ∘
          (fun kv => if kv.1 = key then (kv.1, kv.2.release) else kv)) =
          (fun kv => kv.1 == key) := by
        funext kv
        by_cases hk : kv.1 = key <;> simp [hk]
      have hany : ((keys.map (fun kv => if kv.1 = key then (kv.1, kv.2.release) else kv)).any
          (fun kv => kv.1 == key)) = true := by
        rw [List.any_map, hcomp]
        exact h
      rw [if_pos hany, List.map_map]
      apply List.map_congr_left
      intro kv _
      simp only [Function.comp_apply]
      by_cases hk : kv.1 = key
      · simp [hk, Note.release]
      · simp [hk]
    · unfold process_note_off
      rw [if_neg h, if_neg h]
  · intro hf
    unfold process_note_off
    rw [hf]
    simp
  · by_cases h : keys.any (fun kv => kv.1 == key) = true
    · unfold process_note_off getKey
      rw [if_pos h]
      rw [find_map_pres (fun kv => kv.1 == key)
        (fun kv => if kv.1 = key then (kv.1, kv.2.release) else kv)
        (fun kv => by by_cases hk : kv.1 = key <;> simp [hk]) keys]
      cases hfind : keys.find? (fun kv => kv.1 == key) with
      | none => simp
      | some kv0 =>
        have hp0 := List.find?_some hfind
        have hk0 : kv0.1 = key := by simpa using hp0
        simp [hk0]
    · unfold process_note_off getKey
      rw [if_neg h]
      have hf : keys.any (fun kv => kv.1 == key) = false := Bool.eq_false_iff.mpr h
      rw [find_eq_none_of_any_false _ _ hf]
      simp

/-- C7 witness: the amended statement on the empty registry at key 60. -/
theorem c7_witness :
    process_note_off (process_note_off [] 60) 60 = process_note_off [] 60
    ∧ (([] : List (ℕ × Note)).any (fun kv => kv.1 == 60) = false →
        process_note_off [] 60 = [])
    ∧ getKey (process_note_off [] 60) 60 = (getKey [] 60).map Note.release :=
  c7_amended [] 60

/-- C5: a playing voice in Release phase renders as claimed: with
`releaseRemaining ≤ 0` it transitions to Done (playing := false) and
returns no samples; with `releaseRemaining > 0` it returns the raw
waveform multiplied per-sample by the linear ramp running from
`releaseRemaining/releaseTime` down to
`(releaseRemaining − Δt)/releaseTime`, each gain clamped to [0,1], and
afterwards stores `max 0 (releaseRemaining − Δt)` where
`Δt = frameCount/sampleRate`. -/
theorem c5_release_render (note : Note) (t : List ℝ) (r : ℝ)
    (hp : note.playing = true) (hr : note.release_time_remaining = some r) :
    (r ≤ 0 → note.samples t = (none, { note with playing := false }))
    ∧ (0 < r →
        (note.samples t).2 = { note with release_time_remaining := some (max 0 (r - (t.length : ℝ) / sample_rate)) }
        ∧ ∃ out, (note.samples t).1 = some out ∧ out.length = t.length
          ∧ ∀ i, i < t.length →
              out.getD i 0 =
                (oscillators note.out_osc t note.frequency).getD i 0 *
                  min 1 (max 0 (r / release_time +
                    (i : ℝ) * ((r - (t.length : ℝ) / sample_rate) / release_time
                      - r / release_time) / ((t.length : ℝ) - 1)))) := by
  constructor
  · intro h0
    exact samples_release_done note t r hp hr h0
  · intro h0
    rw [samples_release_pos note t r hp hr h0]
    refine ⟨rfl, _, rfl, ?_, ?_⟩
    · simp [List.length_zipWith, oscillators_length, linspace_length]
    · intro i hi
      rw [zip_env_getD _ _ i ?_ ?_]
      · rw [env_getD _ _ _ _ hi]
      · rw [oscillators_length]
        exact hi
      · rw [List.length_map, linspace_length]
        exact hi

/-- C5 witness: the release-phase rendering characterization evaluated at
the concrete voice `noteR` over a one-sample block. -/
theorem c5_witness :
    noteR.playing = true ∧ noteR.release_time_remaining = some (1 / 10) ∧
      (((1 : ℝ) / 10 ≤ 0 → noteR.samples [(0 : ℝ)] = (none, { noteR with playing := false }))
      ∧ (0 < (1 : ℝ) / 10 →
          (noteR.samples [(0 : ℝ)]).2 = { noteR with release_time_remaining := some (max 0 (1 / 10 - (([(0 : ℝ)]).length : ℝ) / sample_rate)) }
          ∧ ∃ out, (noteR.samples [(0 : ℝ)]).1 = some out ∧ out.length = ([(0 : ℝ)]).length
            ∧ ∀ i, i < ([(0 : ℝ)]).length →
                out.getD i 0 =
                  (oscillators noteR.out_osc [(0 : ℝ)] noteR.frequency).getD i 0 *
                    min 1 (max 0 ((1 : ℝ) / 10 / release_time +
                      (i : ℝ) * ((1 / 10 - (([(0 : ℝ)]).length : ℝ) / sample_rate) / release_time
                        - 1 / 10 / release_time) / ((([(0 : ℝ)]).length : ℝ) - 1))))) :=
  ⟨rfl, rfl, c5_release_render noteR [(0 : ℝ)] (1 / 10) rfl rfl⟩

/-- C6: releasing a voice whose attack is still in progress makes every
subsequent render use the release ramp: the rendered output is
independent of the stored attack state, the voice stays in Release
phase, and the ramp starts at gain `releaseRemaining/releaseTime = 1`
(full scale), discarding the attack's instantaneous gain. -/
theorem c6_release_overrides_attack (note : Note) (a : ℝ) (t : List ℝ)
    (hp : note.playing = true) :
    (({ note with attack_time_remaining := a }).release.samples t).1
        = (note.release.samples t).1
    ∧ ((note.release.samples t).2.release_time_remaining).isSome = true
    ∧ ∃ out, (note.release.samples t).1 = some out
      ∧ ∀ i, i < t.length →
          out.getD i 0 =
            (oscillators note.out_osc t note.frequency).getD i 0 *
              min 1 (max 0 (1 + (i : ℝ) *
                ((release_time - (t.length : ℝ) / sample_rate) / release_time - 1)
                  / ((t.length : ℝ) - 1))) := by
  have hrt : (0 : ℝ) < release_time := by
    unfold release_time; norm_num
  have hp0 : note.release.playing = true := hp
  have hp1 : (Note.release { note with attack_time_remaining := a }).playing = true := hp
  have h1 := samples_release_pos note.release t release_time hp0 rfl hrt
  have h2 := samples_release_pos ({ note with attack_time_remaining := a }).release t
    release_time hp1 rfl hrt
  refine ⟨?_, ?_, ?_⟩
  · rw [h1, h2]
    simp [Note.release]
  · rw [h1]
    simp
  · rw [h1]
    refine ⟨_, rfl, ?_⟩
    intro i hi
    simp only [Note.release]
    rw [zip_env_getD _ _ i ?_ ?_]
    · rw [env_getD _ _ _ _ hi, div_self hrt.ne']
    · rw [oscillators_length]
      exact hi
    · rw [List.length_map, linspace_length]
      exact hi

/-- C6 witness: the release-overrides-attack statement evaluated at the
concrete attacking voice `noteA` over a one-sample block. -/
theorem c6_witness :
    noteA.playing = true ∧
      ((({ noteA with attack_time_remaining := 5 }).release.samples [(0 : ℝ)]).1
          = (noteA.release.samples [(0 : ℝ)]).1
      ∧ ((noteA.release.samples [(0 : ℝ)]).2.release_time_remaining).isSome = true
      ∧ ∃ out, (noteA.release.samples [(0 : ℝ)]).1 = some out
        ∧ ∀ i, i < ([(0 : ℝ)]).length →
            out.getD i 0 =
              (oscillators noteA.out_osc [(0 : ℝ)] noteA.frequency).getD i 0 *
                min 1 (max 0 (1 + (i : ℝ) *
                  ((release_time - (([(0 : ℝ)]).length : ℝ) / sample_rate) / release_time - 1)
                    / ((([(0 : ℝ)]).length : ℝ) - 1)))) :=
  ⟨rfl, c6_release_overrides_attack noteA 5 [(0 : ℝ)] rfl⟩

/-- C7 counterexample: a second release with a rendered block in between
is observably different from a single release.  Releasing key 60 and
rendering one 1-frame block leaves the registry at `[(60, note1)]`
(release remaining 4799/48000 s); from that state, releasing again and
rendering produces different samples than rendering without the second
release, because the second release resets the remaining release time to
the full 0.1 s. -/
theorem c7_counterexample :
    output_callback ⟨process_note_off [(60, noteS)] 60, 0⟩ 1
      = ([(-1 / 8 : ℝ)], ⟨[(60, note1)], 1⟩)
    ∧ (output_callback ⟨process_note_off [(60, note1)] 60, 1⟩ 1).1
      ≠ (output_callback ⟨[(60, note1)], 1⟩ 1).1 := by
  have hrt : (0 : ℝ) < release_time := by
    unfold release_time; norm_num
  have hr1 : (0 : ℝ) < 4799 / 48000 := by norm_num
  have hS1 : process_note_off [(60, noteS)] 60 = [(60, noteS.release)] := by
    simp [process_note_off]
  have ht0 : sample_times 0 1 = [(0 : ℝ)] := by
    unfold sample_times linspace
    norm_num
  have ht1 : sample_times 1 1 = [(1 / 48000 : ℝ)] := by
    unfold sample_times linspace sample_rate
    norm_num
  have hsaw0 : saw_samples [(0 : ℝ)] 440 = [(-1 : ℝ)] := by
    unfold saw_samples
    simp only [List.map_cons, List.map_nil, mul_zero]
    rw [fmod_eq_self 0 2 le_rfl (by norm_num) (by norm_num)]
    norm_num
  have hsaw1 : saw_samples [(1 / 48000 : ℝ)] 440 = [(-1189 / 1200 : ℝ)] := by
    unfold saw_samples
    simp only [List.map_cons, List.map_nil]
    have hm : (440 : ℝ) * (1 / 48000) = 11 / 1200 := by norm_num
    rw [hm, fmod_eq_self (11 / 1200) 2 (by norm_num) (by norm_num) (by norm_num)]
    norm_num
  have hclip1 : clip 0 1 (1 : ℝ) = 1 := by
    unfold clip
    rw [max_eq_right (by norm_num : (0 : ℝ) ≤ 1)]
    exact min_self 1
  have hn1 : noteS.release.samples (sample_times 0 1) = (some [(-1 : ℝ)], note1) := by
    rw [samples_release_pos noteS.release (sample_times 0 1) release_time rfl rfl hrt, ht0]
    simp only [Prod.mk.injEq]
    constructor
    · have hosc : oscillators noteS.release.out_osc [(0 : ℝ)] noteS.release.frequency
          = saw_samples [(0 : ℝ)] 440 := rfl
      rw [hosc, hsaw0]
      have hlen : ([(0 : ℝ)]).length = 1 := rfl
      rw [hlen, env_singleton, div_self hrt.ne', hclip1]
      simp
    · have hmax : max 0 (release_time - (([(0 : ℝ)]).length : ℝ) / sample_rate)
          = (4799 / 48000 : ℝ) := by
        have hv : release_time - (([(0 : ℝ)]).length : ℝ) / sample_rate
            = (4799 / 48000 : ℝ) := by
          unfold release_time sample_rate
          norm_num
        rw [hv]
        exact max_eq_right (by norm_num)
      rw [hmax]
      rfl
  have hcb1 : output_callback ⟨[(60, noteS.release)], 0⟩ 1
      = ([(-1 / 8 : ℝ)], ⟨[(60, note1)], 1⟩) := by
    rw [output_callback_singleton 60 noteS.release 0 1 [(-1 : ℝ)] note1 hn1]
    norm_num [addL]
  have hA2 : process_note_off [(60, note1)] 60 = [(60, note1.release)] := by
    simp [process_note_off]
  have hn2 : note1.release.samples (sample_times 1 1)
      = (some [(-1189 / 1200 : ℝ)],
         { note1.release with release_time_remaining := some (max 0 (release_time - ((sample_times 1 1).length : ℝ) / sample_rate)) }) := by
    rw [samples_release_pos note1.release (sample_times 1 1) release_time rfl rfl hrt]
    simp only [Prod.mk.injEq]
    refine ⟨?_, by trivial⟩
    rw [ht1]
    have hosc : oscillators note1.release.out_osc [(1 / 48000 : ℝ)] note1.release.frequency
        = saw_samples [(1 / 48000 : ℝ)] 440 := rfl
    rw [hosc, hsaw1]
    have hlen : ([(1 / 48000 : ℝ)]).length = 1 := rfl
    rw [hlen, env_singleton, div_self hrt.ne', hclip1]
    simp
  have hn3 : note1.samples (sample_times 1 1)
      = (some [((-1189 / 1200) * (4799 / 4800) : ℝ)],
         { note1 with release_time_remaining := some (max 0 (4799 / 48000 - ((sample_times 1 1).length : ℝ) / sample_rate)) }) := by
    rw [samples_release_pos note1 (sample_times 1 1) (4799 / 48000) rfl rfl hr1]
    simp only [Prod.mk.injEq]
    refine ⟨?_, by trivial⟩
    rw [ht1]
    have hosc : oscillators note1.out_osc [(1 / 48000 : ℝ)] note1.frequency
        = saw_samples [(1 / 48000 : ℝ)] 440 := rfl
    rw [hosc, hsaw1]
    have hlen : ([(1 / 48000 : ℝ)]).length = 1 := rfl
    have hval : (4799 / 48000 : ℝ) / release_time = 4799 / 4800 := by
      unfold release_time
      norm_num
    have hclip2 : clip 0 1 ((4799 / 48000 : ℝ) / release_time) = 4799 / 4800 := by
      unfold clip
      rw [hval, max_eq_right (by norm_num : (0 : ℝ) ≤ 4799 / 4800)]
      exact min_eq_right (by norm_num)
    rw [hlen, env_singleton, hclip2]
    simp
  refine ⟨by rw [hS1]; exact hcb1, ?_⟩
  rw [hA2, output_callback_singleton 60 note1.release 1 1 _ _ hn2,
    output_callback_singleton 60 note1 1 1 _ _ hn3]
  norm_num [addL]

/-- C1 counterexample: the wavetable oscillator weights the two table
entries backwards.  At time `t = 1/192000` and `f = 750` the virtual
index is 1/4 with `frac = 1/4`: the claimed interpolation is
`table[0]·(3/4) + table[1]·(1/4)` but the code computes
`table[0]·(1/4) + table[1]·(3/4)`, and `table[1] = sin(20π/639) > 0`,
so the outputs differ. -/
theorem c1_counterexample :
    wave_samples [(1 / 192000 : ℝ)] 750 ≠ claimed_wave_samples [(1 / 192000 : ℝ)] 750 := by
  have hsin : 0 < Real.sin (20 * π * ((1 : ℕ) : ℝ) / 639) := by
    push_cast
    apply Real.sin_pos_of_pos_of_lt_pi
    · positivity
    · nlinarith [Real.pi_pos]
  have h0 : wavetable.getD 0 0 = 0 := by
    rw [wavetable_getD 0 (by norm_num)]
    norm_num
  have h1 : wavetable.getD 1 0 = Real.sin (20 * π * ((1 : ℕ) : ℝ) / 639) :=
    wavetable_getD 1 (by norm_num)
  unfold wave_samples claimed_wave_samples
  simp only [List.map_cons, List.map_nil]
  rw [nwavetable_eq]
  simp only [Nat.cast_ofNat]
  have harg : (750 / wavetable_freq) * (1 / 192000 : ℝ) * sample_rate = 1 / 4 := by
    unfold wavetable_freq sample_rate
    norm_num
  rw [harg, fmod_eq_self (1 / 4) 640 (by norm_num) (by norm_num) (by norm_num)]
  have hfl : ⌊(1 / 4 : ℝ)⌋ = 0 := by
    rw [Int.floor_eq_zero_iff, Set.mem_Ico]
    norm_num
  rw [hfl]
  simp only [Int.toNat_zero, Int.cast_zero, sub_zero, zero_add, Nat.zero_mod]
  norm_num
  intro hc
  simp only [List.getD_eq_getElem?_getD] at h0 h1
  rw [h0, h1] at hc
  nlinarith [hsin]

/-- C1 amended: the code computes the reversed linear interpolation
`table[floor idx]·frac + table[(floor idx + 1) % len]·(1 − frac)` of the
virtual index `idx = (f/refFreq)·t·sampleRate mod tableLength`; in
particular at the reference frequency and integer sample times the
oscillator reproduces the stored cycle advanced by one table slot:
sample `k` yields `table[(k+1) % 640]`. -/
theorem c1_amended (k : ℕ) :
    wave_samples [(k : ℝ) / sample_rate] 750 = [wavetable.getD ((k + 1) % 640) 0] := by
  unfold wave_samples
  simp only [List.map_cons, List.map_nil]
  rw [nwavetable_eq]
  simp only [Nat.cast_ofNat]
  have harg : (750 / wavetable_freq) * ((k : ℝ) / sample_rate) * sample_rate = (k : ℝ) := by
    unfold wavetable_freq sample_rate
    field_simp
  rw [harg, fmod_natCast_640 k, Int.floor_natCast]
  simp only [Int.toNat_natCast, Int.cast_natCast, sub_self]
  have hmod : (k % 640 + 1) % 640 = (k + 1) % 640 := by omega
  rw [hmod]
  norm_num

end Misy
